import Mathlib

/-!
Shallow embedding of the jsTreeViz sources (`src/BTreeNode.js`, `src/treeUtils.js`
and the unnamed UI/layout file) together with proofs of the specification claims.

Modelling conventions:
* JavaScript strings are `List Char` (`JSString`); `input[i]` on a string is
  `(input.get? i).map (fun c => [c])`, with `none` playing the role of `undefined`.
* Mutable `BTreeNode` objects are records in an id-indexed heap
  (`List BTreeNode`); child pointers are `Option Nat` ids.  The breadth-first
  queue of `treeConstructor` holds node ids, and the `while` loop is run with an
  explicit fuel equal to the parsed-token count, which provably suffices
  (the token index strictly increases on every iteration).
* JavaScript numbers used by the layout are modelled as exact rationals `ℚ`.
* The 2D canvas is modelled as the list of drawing commands issued to it.
-/

/-- JavaScript strings, modelled as lists of characters. -/
abbrev JSString := List Char

/-- The splitting behaviour of JavaScript `String.prototype.split` with a
single-character separator: `"" ↦ [""]`, separators at the ends produce empty
fragments. -/
def jsSplit (sep : Char) : JSString → List JSString
  | [] => [[]]
  | c :: rest =>
    if c = sep then [] :: jsSplit sep rest
    else
      match jsSplit sep rest with
      | t :: ts => (c :: t) :: ts
      | [] => [[c]]

/-- JavaScript `x || 0` on a number that is already a `Nat`. -/
def jsOrZero (n : Nat) : Nat := if n = 0 then 0 else n

/-- `parseInput` from `src/treeUtils.js`: drop every space character (only
`' '` is tested by the source), split on `','`, and map the literal token
`"null"` to the null sentinel `none`. -/
def parseInput (inputVal : JSString) : List (Option JSString) :=
  let parsedInput := inputVal.foldl (fun acc c => if c ≠ ' ' then acc ++ [c] else acc) []
  (jsSplit ',' parsedInput).map (fun e => if e = "null".toList then none else some e)

/-- A `BTreeNode` object from `src/BTreeNode.js`: a value and two child
pointers.  `value` is `none` when the construction stored JavaScript
`undefined` there. -/
structure BTreeNode where
  value : Option JSString
  leftChild : Option Nat
  rightChild : Option Nat
deriving DecidableEq, Repr

/-- `setLeftChild` from `src/BTreeNode.js`. -/
def BTreeNode.setLeftChild (nd : BTreeNode) (v : Option Nat) : BTreeNode :=
  { nd with leftChild := v }

/-- `setRightChild` from `src/BTreeNode.js`. -/
def BTreeNode.setRightChild (nd : BTreeNode) (v : Option Nat) : BTreeNode :=
  { nd with rightChild := v }

/-- `getBTreeHeight` needs a pure view of a node object graph; since the
builder only ever produces trees, the object graph is an inductive tree.
`nil` stands for a `null` child pointer. -/
inductive BTree where
  | nil : BTree
  | node (value : Option JSString) (leftChild rightChild : BTree) : BTree
deriving DecidableEq, Repr

/-- `getBTreeHeight` from `src/BTreeNode.js`:
`leftHeight = this.leftChild?.getBTreeHeight() || 0` (the `?.` on a `null`
child yields `undefined`, and `undefined || 0` is `0`), symmetrically for the
right child, then `Math.max(leftHeight, rightHeight) + 1`. -/
def getBTreeHeight : BTree → Nat
  | .nil => 0
  | .node _ l r =>
    let leftHeight := jsOrZero (getBTreeHeight l)
    let rightHeight := jsOrZero (getBTreeHeight r)
    max leftHeight rightHeight + 1

/-- State of the breadth-first construction loop in `treeConstructor`:
the object heap, the pending queue of node ids, and the token index. -/
structure BuildState where
  heap : List BTreeNode
  queue : List Nat
  idx : Nat
deriving DecidableEq, Repr

/-- One `if (idx < newinput.length) { ... idx++ }` block from the loop body of
`treeConstructor`: consume the token at `idx` as a child candidate for the
dequeued node `nodeId` (left slot when `isLeft`).  A non-null token allocates
a node, attaches it and enqueues it; a null token only advances `idx`. -/
def processChildSlot (newinput : List (Option JSString)) (nodeId : Nat) (isLeft : Bool)
    (st : BuildState) : BuildState :=
  if st.idx < newinput.length then
    match newinput.get? st.idx with
    | some (some v) =>
      let childNode : BTreeNode := { value := some v, leftChild := none, rightChild := none }
      let childId := st.heap.length
      let heap1 := st.heap ++ [childNode]
      let heap2 :=
        match heap1.get? nodeId with
        | some nd =>
          heap1.set nodeId (if isLeft then nd.setLeftChild (some childId)
                            else nd.setRightChild (some childId))
        | none => heap1
      { heap := heap2, queue := st.queue ++ [childId], idx := st.idx + 1 }
    | some none => { st with idx := st.idx + 1 }
    | none => { st with idx := st.idx + 1 }
  else st

/-- One iteration of the `while` loop of `treeConstructor`: `queue.shift()`
then the left-child block then the right-child block. -/
def treeBuildStep (newinput : List (Option JSString)) (st : BuildState) : BuildState :=
  match st.queue with
  | [] => st
  | nodeId :: rest =>
    let s1 := processChildSlot newinput nodeId true { st with queue := rest }
    processChildSlot newinput nodeId false s1

/-- The `while (queue.length > 0 && idx < newinput.length)` loop, run with an
explicit fuel.  A fuel of `newinput.length` always suffices because each
iteration strictly increases `idx` (proved below). -/
def treeBuildLoopAux (newinput : List (Option JSString)) : Nat → BuildState → BuildState
  | 0, st => st
  | fuel + 1, st =>
    if 0 < st.queue.length ∧ st.idx < newinput.length then
      treeBuildLoopAux newinput fuel (treeBuildStep newinput st)
    else st

/-- The construction loop of `treeConstructor`. -/
def treeBuildLoop (newinput : List (Option JSString)) (st : BuildState) : BuildState :=
  treeBuildLoopAux newinput newinput.length st

/-- `treeConstructor` from `src/treeUtils.js`.  Note that the root node is
built from `input[idx]` with `idx = 0` on the *raw* string (its first
character), not from the first parsed token; the loop then starts at token
index `1`.  The returned state's heap rooted at id `0` is the returned tree. -/
def treeConstructor (input : JSString) : BuildState :=
  let newinput := parseInput input
  let root : BTreeNode :=
    { value := (input.get? 0).map (fun c => [c]), leftChild := none, rightChild := none }
  treeBuildLoop newinput { heap := [root], queue := [0], idx := 0 + 1 }

/-- Read the pure tree reachable from node `i` of a heap; `fuel` bounds the
pointer-chasing depth (`heap.length` suffices for the heaps the builder
produces, whose child pointers strictly increase). -/
def toTree (heap : List BTreeNode) : Nat → Nat → BTree
  | 0, _ => .nil
  | fuel + 1, i =>
    match heap.get? i with
    | none => .nil
    | some nd =>
      .node nd.value
        (match nd.leftChild with
         | some l => toTree heap fuel l
         | none => .nil)
        (match nd.rightChild with
         | some r => toTree heap fuel r
         | none => .nil)

/-- Number of nodes of a pure tree. -/
def nodeCount : BTree → Nat
  | .nil => 0
  | .node _ l r => 1 + nodeCount l + nodeCount r

/-- The tree (as a pure value) returned by `treeConstructor`. -/
def builtTree (input : JSString) : BTree :=
  let st := treeConstructor input
  toTree st.heap st.heap.length 0

/-- The list of heap ids visited by `toTree`, in visit order. -/
def idList (heap : List BTreeNode) : Nat → Nat → List Nat
  | 0, _ => []
  | fuel + 1, i =>
    match heap.get? i with
    | none => []
    | some nd =>
      i :: ((match nd.leftChild with
             | some l => idList heap fuel l
             | none => []) ++
            (match nd.rightChild with
             | some r => idList heap fuel r
             | none => []))

/-- Number of non-null tokens of a parsed token list. -/
def countSome (l : List (Option JSString)) : Nat := l.countP (fun o => o.isSome)

/-- `DEFAULT_NODE_CONFIG` from `src/treeUtils.js`. -/
structure NodeConfig where
  radius : ℚ
  nodeWidthSpacing : ℚ
  nodeHeightSpacing : ℚ
  fontSize : ℚ
deriving DecidableEq, Repr

/-- `DEFAULT_NODE_CONFIG` values. -/
def DEFAULT_NODE_CONFIG : NodeConfig :=
  { radius := 20, nodeWidthSpacing := 50, nodeHeightSpacing := 90, fontSize := 15 }

/-- The `{ canvasWidth, canvasHeight }` record returned by
`getRequiredHeightWidth`. -/
structure CanvasDims where
  canvasWidth : ℚ
  canvasHeight : ℚ
deriving DecidableEq, Repr

/-- `getRequiredHeightWidth` from `src/treeUtils.js`. -/
def getRequiredHeightWidth (root : BTree) : CanvasDims :=
  let heightOfTree := getBTreeHeight root
  let maxPosLeafNodes : ℚ := 2 ^ heightOfTree
  let canvasHeight := (heightOfTree : ℚ) * DEFAULT_NODE_CONFIG.nodeHeightSpacing
  let canvasWidth := maxPosLeafNodes * DEFAULT_NODE_CONFIG.nodeWidthSpacing
  { canvasWidth := canvasWidth, canvasHeight := canvasHeight }

/-- A drawing command issued to the 2D canvas context. -/
inductive DrawCmd where
  | fillCircle (x y radius : ℚ) (fillStyle : JSString)
  | strokeCircle (x y radius lineWidth : ℚ) (strokeStyle : JSString)
  | fillText (text : Option JSString) (x y : ℚ)
  | bezier (startP cp1 cp2 endP : ℚ × ℚ) (lineWidth : ℚ) (strokeStyle : JSString)
deriving DecidableEq, Repr

/-- `drawNode` from `src/treeUtils.js`: filled circle, stroked border, label. -/
def drawNode (value : Option JSString) (canvasEl : List DrawCmd) (x y : ℚ) : List DrawCmd :=
  canvasEl ++
    [ .fillCircle x y DEFAULT_NODE_CONFIG.radius "#000000".toList,
      .strokeCircle x y DEFAULT_NODE_CONFIG.radius 3 "#b994f6".toList,
      .fillText value x (y + DEFAULT_NODE_CONFIG.fontSize / 3) ]

/-- The `{ xStart, xEnd }` horizontal interval passed down during layout. -/
structure HC where
  xStart : ℚ
  xEnd : ℚ
deriving DecidableEq, Repr

/-- The `{ yStart, yEnd }` vertical pair passed to `connectEdges`. -/
structure VC where
  yStart : ℚ
  yEnd : ℚ
deriving DecidableEq, Repr

/-- `connectEdges` from `src/treeUtils.js`: one cubic bezier curve. -/
def connectEdges (canvasEl : List DrawCmd) (xCordinates : HC) (yCordinates : VC) : List DrawCmd :=
  let xHalf := (xCordinates.xStart + xCordinates.xEnd) / 2
  let yHalf := (yCordinates.yStart + yCordinates.yEnd) / 2
  canvasEl ++
    [ .bezier (xCordinates.xStart, yCordinates.yStart) (xHalf, yHalf)
        (xCordinates.xEnd, yHalf) (xCordinates.xEnd, yCordinates.yEnd) 1 "#ffffff".toList ]

/-- `recursivelyDrawNodes` from the unnamed UI/layout source file.  The node
argument and the canvas are threaded explicitly: the returned tree is the node
object graph as it stands after the call (the source only reads it), and the
returned command list is the canvas content. -/
def recursivelyDrawNodes : BTree → List DrawCmd → ℚ → HC → BTree × List DrawCmd
  | .nil, canvasEl, _, _ => (.nil, canvasEl)
  | .node v l r, canvasEl, currentLevel, horizontalConfig =>
    let xPos := (horizontalConfig.xStart + horizontalConfig.xEnd) / 2
    let yPos := currentLevel * DEFAULT_NODE_CONFIG.nodeHeightSpacing
    let canvas1 := drawNode v canvasEl xPos yPos
    let leftRes :=
      match l with
      | .nil => (l, canvas1)
      | .node _ _ _ =>
        let res := recursivelyDrawNodes l canvas1 (currentLevel + 1)
          { xStart := horizontalConfig.xStart, xEnd := xPos }
        (res.1,
          connectEdges res.2
            { xStart := xPos, xEnd := (horizontalConfig.xStart + xPos) / 2 }
            { yStart := yPos + DEFAULT_NODE_CONFIG.radius,
              yEnd := (currentLevel + 1) * DEFAULT_NODE_CONFIG.nodeHeightSpacing -
                DEFAULT_NODE_CONFIG.radius })
    let rightRes :=
      match r with
      | .nil => (r, leftRes.2)
      | .node _ _ _ =>
        let res := recursivelyDrawNodes r leftRes.2 (currentLevel + 1)
          { xStart := xPos, xEnd := horizontalConfig.xEnd }
        (res.1,
          connectEdges res.2
            { xStart := xPos, xEnd := (xPos + horizontalConfig.xEnd) / 2 }
            { yStart := yPos + DEFAULT_NODE_CONFIG.radius,
              yEnd := (currentLevel + 1) * DEFAULT_NODE_CONFIG.nodeHeightSpacing -
                DEFAULT_NODE_CONFIG.radius })
    (.node v leftRes.1 rightRes.1, rightRes.2)

/-- The canvas element: pixel dimensions plus issued commands. -/
structure CanvasEl where
  width : ℚ
  height : ℚ
  cmds : List DrawCmd
deriving DecidableEq, Repr

/-- `drawBTree` from the unnamed UI/layout source file; `winW`/`winH` stand
for `window.innerWidth`/`window.innerHeight`. -/
def drawBTree (rootEl : BTree) (canvasEl : CanvasEl) (winW winH : ℚ) : BTree × CanvasEl :=
  let maxWidth := winW
  let maxHeight := winH
  let canvasEl1 := { canvasEl with width := maxWidth, height := maxHeight }
  let dims := getRequiredHeightWidth rootEl
  let windowCenter := maxWidth / 2
  let widthCenter := dims.canvasWidth / 2
  let xStart := windowCenter - widthCenter
  let xEnd := windowCenter + widthCenter
  let res := recursivelyDrawNodes rootEl canvasEl1.cmds (1 / 2) { xStart := xStart, xEnd := xEnd }
  (res.1, { canvasEl1 with cmds := res.2 })

/-- Every invocation of `recursivelyDrawNodes` performed while laying out a
tree: the subtree, its level, and its horizontal interval.  The source only
recurses into children that are not `null`. -/
def layoutCalls : BTree → ℚ → HC → List (BTree × ℚ × HC)
  | .nil, currentLevel, hc => [(.nil, currentLevel, hc)]
  | .node v l r, currentLevel, hc =>
    let xPos := (hc.xStart + hc.xEnd) / 2
    (BTree.node v l r, currentLevel, hc) ::
      ((match l with
        | .nil => []
        | .node _ _ _ => layoutCalls l (currentLevel + 1) { xStart := hc.xStart, xEnd := xPos }) ++
       (match r with
        | .nil => []
        | .node _ _ _ => layoutCalls r (currentLevel + 1) { xStart := xPos, xEnd := hc.xEnd }))

/-- The x-coordinates of the node circles among a list of drawing commands. -/
def drawnNodeXs (cmds : List DrawCmd) : List ℚ :=
  cmds.filterMap (fun cmd =>
    match cmd with
    | .fillCircle x _ _ _ => some x
    | _ => none)

/-- The x-positions of all nodes drawn when laying out `t` at level `lvl` on
the interval `[a, b]`, starting from an empty canvas. -/
def nodeXs (t : BTree) (lvl a b : ℚ) : List ℚ :=
  drawnNodeXs (recursivelyDrawNodes t [] lvl { xStart := a, xEnd := b }).2

/-- The drawing commands that one call of `recursivelyDrawNodes` appends to
the canvas (the pass only ever appends; this canonical form is proved to
characterise the threaded canvas below). -/
def layoutCmds : BTree → ℚ → HC → List DrawCmd
  | .nil, _, _ => []
  | .node v l r, currentLevel, hc =>
    let xPos := (hc.xStart + hc.xEnd) / 2
    let yPos := currentLevel * DEFAULT_NODE_CONFIG.nodeHeightSpacing
    drawNode v [] xPos yPos ++
      ((match l with
        | .nil => []
        | .node _ _ _ =>
          layoutCmds l (currentLevel + 1) { xStart := hc.xStart, xEnd := xPos } ++
            connectEdges [] { xStart := xPos, xEnd := (hc.xStart + xPos) / 2 }
              { yStart := yPos + DEFAULT_NODE_CONFIG.radius,
                yEnd := (currentLevel + 1) * DEFAULT_NODE_CONFIG.nodeHeightSpacing -
                  DEFAULT_NODE_CONFIG.radius }) ++
       (match r with
        | .nil => []
        | .node _ _ _ =>
          layoutCmds r (currentLevel + 1) { xStart := xPos, xEnd := hc.xEnd } ++
            connectEdges [] { xStart := xPos, xEnd := (xPos + hc.xEnd) / 2 }
              { yStart := yPos + DEFAULT_NODE_CONFIG.radius,
                yEnd := (currentLevel + 1) * DEFAULT_NODE_CONFIG.nodeHeightSpacing -
                  DEFAULT_NODE_CONFIG.radius }))

/-- Follows the spec sentence for the parser, for comparison with the source:
"Strip all whitespace characters from the input, then split on `,` ...; map
the literal string `"null"` to the null sentinel". -/
def parseInputSpecWhitespace (inputVal : JSString) : List (Option JSString) :=
  (jsSplit ',' (inputVal.filter (fun c => !c.isWhitespace))).map
    (fun e => if e = "null".toList then none else some e)

/-- The amended parser specification: strip all *space* (U+0020) characters,
then split on `,` and map `"null"` to the null sentinel. -/
def parseInputSpecSpaces (inputVal : JSString) : List (Option JSString) :=
  (jsSplit ',' (inputVal.filter (fun c => !(c == ' ')))).map
    (fun e => if e = "null".toList then none else some e)

/-! ## Basic facts about `getBTreeHeight` -/

theorem getBTreeHeight_node (v : Option JSString) (l r : BTree) :
    getBTreeHeight (.node v l r) =
      max (jsOrZero (getBTreeHeight l)) (jsOrZero (getBTreeHeight r)) + 1 := rfl

theorem getBTreeHeight_pos (v : Option JSString) (l r : BTree) :
    1 ≤ getBTreeHeight (.node v l r) := by
  rw [getBTreeHeight_node]; omega

theorem jsOrZero_getBTreeHeight (t : BTree) : jsOrZero (getBTreeHeight t) = getBTreeHeight t := by
  cases t with
  | nil => rfl
  | node v l r =>
    have h := getBTreeHeight_pos v l r
    unfold jsOrZero
    rw [if_neg (by omega)]

/-- C4: `getBTreeHeight` returns at least `1` on every node, equals one plus
the maximum of the children's heights (an absent child contributing `0`
because `getBTreeHeight BTree.nil = 0`), and a node with no children has
height `1`.  The embedding is a pure function, so the call cannot modify the
tree. -/
theorem claim_C4 :
    (∀ (v : Option JSString) (l r : BTree),
        getBTreeHeight (.node v l r) = 1 + max (getBTreeHeight l) (getBTreeHeight r) ∧
        1 ≤ getBTreeHeight (.node v l r)) ∧
      (∀ v : Option JSString, getBTreeHeight (.node v .nil .nil) = 1) := by
  constructor
  · intro v l r
    refine ⟨?_, getBTreeHeight_pos v l r⟩
    rw [getBTreeHeight_node, jsOrZero_getBTreeHeight, jsOrZero_getBTreeHeight]
    omega
  · intro v
    rfl

/-- C5: `getRequiredHeightWidth` returns
`canvasWidth = 2 ^ height * nodeWidthSpacing` and
`canvasHeight = height * nodeHeightSpacing`, with the default spacings `50`
and `90`; for the single-node tree built from `"7"` (height `1`) the width is
`2 * nodeWidthSpacing`. -/
theorem claim_C5 :
    (∀ root : BTree,
        (getRequiredHeightWidth root).canvasWidth =
          2 ^ getBTreeHeight root * DEFAULT_NODE_CONFIG.nodeWidthSpacing ∧
        (getRequiredHeightWidth root).canvasHeight =
          (getBTreeHeight root : ℚ) * DEFAULT_NODE_CONFIG.nodeHeightSpacing) ∧
      DEFAULT_NODE_CONFIG.nodeWidthSpacing = 50 ∧
      DEFAULT_NODE_CONFIG.nodeHeightSpacing = 90 ∧
      getBTreeHeight (builtTree "7".toList) = 1 ∧
      (getRequiredHeightWidth (builtTree "7".toList)).canvasWidth =
        2 * DEFAULT_NODE_CONFIG.nodeWidthSpacing := by
  have h7 : getBTreeHeight (builtTree "7".toList) = 1 := by decide
  have h7l : getBTreeHeight (builtTree ['7']) = 1 := h7
  refine ⟨fun root => ⟨rfl, rfl⟩, rfl, rfl, h7, ?_⟩
  simp [getRequiredHeightWidth, h7, h7l, DEFAULT_NODE_CONFIG]

/-! ## The parser -/

theorem foldl_filter_space (l : List Char) : ∀ acc : List Char,
    l.foldl (fun acc c => if c ≠ ' ' then acc ++ [c] else acc) acc =
      acc ++ l.filter (fun c => !(c == ' ')) := by
  induction l with
  | nil => intro acc; simp
  | cons c rest ih =>
    intro acc
    rw [List.foldl_cons, List.filter_cons]
    by_cases hc : c = ' '
    · rw [if_neg (by simp [hc]), ih]
      simp [hc]
    · rw [if_pos hc, ih]
      simp [hc]

/-- C7 (amended): `parseInput` removes every *space* character (U+0020) from
the input, splits on `,`, maps the literal token `"null"` to the null
sentinel, and leaves every other token unchanged. -/
theorem claim_C7 : ∀ inputVal : JSString, parseInput inputVal = parseInputSpecSpaces inputVal := by
  intro inputVal
  unfold parseInput parseInputSpecSpaces
  rw [foldl_filter_space]
  simp

/-- C7 counterexample: on the input `"1\t,2"` the source keeps the tab
character (it only filters `' '`), so `parseInput` differs from the
spec-mandated whitespace-stripping parser: the claim as stated is false. -/
theorem claim_C7_counterexample :
    parseInput "1\t,2".toList = [some ['1', '\t'], some ['2']] ∧
      parseInputSpecWhitespace "1\t,2".toList = [some ['1'], some ['2']] ∧
      parseInput "1\t,2".toList ≠ parseInputSpecWhitespace "1\t,2".toList := by
  refine ⟨by decide, by decide, by decide⟩

/-- C8: `"1,null,2"` builds a root valued `"1"` with an empty left slot and a
right child valued `"2"`; the final state shows the null token consumed index
`1` (the loop ended with `idx = 3`) while allocating no node (the heap has
exactly two nodes) and enqueuing nothing (only the right child id `1` was ever
enqueued). -/
theorem claim_C8 :
    treeConstructor "1,null,2".toList =
      { heap := [{ value := some ['1'], leftChild := none, rightChild := some 1 },
                 { value := some ['2'], leftChild := none, rightChild := none }],
        queue := [1], idx := 3 } ∧
      builtTree "1,null,2".toList =
        .node (some ['1']) .nil (.node (some ['2']) .nil .nil) := by
  refine ⟨by decide, by decide⟩

/-! ## Index and heap evolution of the construction loop -/

theorem processChildSlot_idx_le (newinput : List (Option JSString)) (nodeId : Nat)
    (isLeft : Bool) (st : BuildState) :
    st.idx ≤ (processChildSlot newinput nodeId isLeft st).idx := by
  unfold processChildSlot
  split
  · split <;> simp
  · exact Nat.le_refl _

theorem processChildSlot_idx_succ (newinput : List (Option JSString)) (nodeId : Nat)
    (isLeft : Bool) (st : BuildState) (h : st.idx < newinput.length) :
    (processChildSlot newinput nodeId isLeft st).idx = st.idx + 1 := by
  unfold processChildSlot
  rw [if_pos h]
  split <;> rfl

theorem treeBuildStep_idx_lt (newinput : List (Option JSString)) (st : BuildState)
    (hq : st.queue ≠ []) (hi : st.idx < newinput.length) :
    st.idx < (treeBuildStep newinput st).idx := by
  unfold treeBuildStep
  match hqq : st.queue with
  | [] => exact absurd hqq hq
  | nodeId :: rest =>
    show st.idx < (processChildSlot newinput nodeId false
      (processChildSlot newinput nodeId true { st with queue := rest })).idx
    have h1 : (processChildSlot newinput nodeId true { st with queue := rest }).idx =
        st.idx + 1 :=
      processChildSlot_idx_succ _ _ _ _ hi
    have h2 := processChildSlot_idx_le newinput nodeId false
      (processChildSlot newinput nodeId true { st with queue := rest })
    omega

theorem processChildSlot_heapLen_le (newinput : List (Option JSString)) (nodeId : Nat)
    (isLeft : Bool) (st : BuildState) :
    st.heap.length ≤ (processChildSlot newinput nodeId isLeft st).heap.length := by
  unfold processChildSlot
  split
  · split
    · simp only
      split <;> simp
    · exact Nat.le_refl _
    · exact Nat.le_refl _
  · exact Nat.le_refl _

theorem treeBuildStep_heapLen_le (newinput : List (Option JSString)) (st : BuildState) :
    st.heap.length ≤ (treeBuildStep newinput st).heap.length := by
  unfold treeBuildStep
  match hqq : st.queue with
  | [] => exact Nat.le_refl _
  | nodeId :: rest =>
    have h1 := processChildSlot_heapLen_le newinput nodeId true { st with queue := rest }
    have h2 := processChildSlot_heapLen_le newinput nodeId false
      (processChildSlot newinput nodeId true { st with queue := rest })
    exact le_trans h1 h2

theorem treeBuildLoopAux_heapLen_le (newinput : List (Option JSString)) :
    ∀ (fuel : Nat) (st : BuildState),
      st.heap.length ≤ (treeBuildLoopAux newinput fuel st).heap.length := by
  intro fuel
  induction fuel with
  | zero => intro st; exact Nat.le_refl _
  | succ fuel ih =>
    intro st
    unfold treeBuildLoopAux
    split
    · exact le_trans (treeBuildStep_heapLen_le newinput st) (ih _)
    · exact Nat.le_refl _

/-- Appending a fresh node and rewriting one existing node's child pointers
leaves every stored value unchanged. -/
theorem heapUpdate_value (heap : List BTreeNode) (x : BTreeNode) (nodeId k : Nat)
    (hk : k < heap.length) (nd nd' : BTreeNode) (hval : nd'.value = nd.value)
    (hnd : (heap ++ [x]).get? nodeId = some nd) :
    (((heap ++ [x]).set nodeId nd').get? k).map BTreeNode.value =
      (heap.get? k).map BTreeNode.value := by
  by_cases hkn : nodeId = k
  · subst hkn
    have hlt : nodeId < (heap ++ [x]).length := by simp; omega
    rw [List.get?_set_eq_of_lt _ hlt]
    rw [List.get?_append hk] at hnd
    rw [hnd]
    simp [hval]
  · rw [List.get?_set_ne _ _ hkn, List.get?_append hk]

/-- Values stored in the heap are never rewritten: only child pointers are. -/
theorem processChildSlot_value (newinput : List (Option JSString)) (nodeId : Nat)
    (isLeft : Bool) (st : BuildState) (k : Nat) (hk : k < st.heap.length) :
    ((processChildSlot newinput nodeId isLeft st).heap.get? k).map BTreeNode.value =
      (st.heap.get? k).map BTreeNode.value := by
  unfold processChildSlot
  split
  · split
    · simp only
      split
      · rename_i nd hnd
        refine heapUpdate_value st.heap _ nodeId k hk nd _ ?_ hnd
        cases isLeft <;> rfl
      · rw [List.get?_append hk]
    · rfl
    · rfl
  · rfl

theorem treeBuildStep_value (newinput : List (Option JSString)) (st : BuildState)
    (k : Nat) (hk : k < st.heap.length) :
    ((treeBuildStep newinput st).heap.get? k).map BTreeNode.value =
      (st.heap.get? k).map BTreeNode.value := by
  unfold treeBuildStep
  match hqq : st.queue with
  | [] => rfl
  | nodeId :: rest =>
    show ((processChildSlot newinput nodeId false
        (processChildSlot newinput nodeId true { st with queue := rest })).heap.get? k).map
        BTreeNode.value = (st.heap.get? k).map BTreeNode.value
    have h1 := processChildSlot_value newinput nodeId true { st with queue := rest } k hk
    have h2 := processChildSlot_value newinput nodeId false
      (processChildSlot newinput nodeId true { st with queue := rest }) k
      (lt_of_lt_of_le hk
        (processChildSlot_heapLen_le newinput nodeId true { st with queue := rest }))
    exact h2.trans h1

theorem treeBuildLoopAux_value (newinput : List (Option JSString)) :
    ∀ (fuel : Nat) (st : BuildState) (k : Nat), k < st.heap.length →
      ((treeBuildLoopAux newinput fuel st).heap.get? k).map BTreeNode.value =
        (st.heap.get? k).map BTreeNode.value := by
  intro fuel
  induction fuel with
  | zero => intro st k _; rfl
  | succ fuel ih =>
    intro st k hk
    unfold treeBuildLoopAux
    split
    · have h1 := ih (treeBuildStep newinput st) k
        (lt_of_lt_of_le hk (treeBuildStep_heapLen_le newinput st))
      exact h1.trans (treeBuildStep_value newinput st k hk)
    · rfl

/-- The loop is insensitive to extra fuel: any fuel covering the remaining
token positions gives the same final state. -/
theorem treeBuildLoopAux_stable (newinput : List (Option JSString)) :
    ∀ (fuel₁ fuel₂ : Nat) (st : BuildState),
      newinput.length ≤ fuel₁ + st.idx → newinput.length ≤ fuel₂ + st.idx →
      treeBuildLoopAux newinput fuel₁ st = treeBuildLoopAux newinput fuel₂ st := by
  intro fuel₁
  induction fuel₁ with
  | zero =>
    intro fuel₂ st h1 _
    have hidx : ¬ st.idx < newinput.length := by omega
    cases fuel₂ with
    | zero => rfl
    | succ fuel₂ =>
      unfold treeBuildLoopAux
      rw [if_neg (by simp [hidx])]
  | succ fuel₁ ih =>
    intro fuel₂ st h1 h2
    cases fuel₂ with
    | zero =>
      have hidx : ¬ st.idx < newinput.length := by omega
      unfold treeBuildLoopAux
      rw [if_neg (by simp [hidx])]
    | succ fuel₂ =>
      by_cases hg : 0 < st.queue.length ∧ st.idx < newinput.length
      · unfold treeBuildLoopAux
        rw [if_pos hg, if_pos hg]
        have hlt : st.idx < (treeBuildStep newinput st).idx :=
          treeBuildStep_idx_lt newinput st (by
            intro hnil
            rw [hnil] at hg
            simp at hg) hg.2
        exact ih fuel₂ (treeBuildStep newinput st) (by omega) (by omega)
      · unfold treeBuildLoopAux
        rw [if_neg hg, if_neg hg]

/-- C10: termination of the breadth-first construction.  Whenever the loop
guard holds, one iteration strictly increases the token index; consequently
any fuel covering the remaining tokens — in particular the canonical
`newinput.length - st.idx`, i.e. at most one iteration per parsed token —
already yields the loop's final state; and `treeConstructor` always returns a
root node (the heap is never empty), for every input including `""`. -/
theorem claim_C10 :
    (∀ (newinput : List (Option JSString)) (st : BuildState),
        st.queue ≠ [] → st.idx < newinput.length →
        st.idx < (treeBuildStep newinput st).idx) ∧
      (∀ (newinput : List (Option JSString)) (fuel : Nat) (st : BuildState),
        newinput.length ≤ fuel + st.idx →
        treeBuildLoopAux newinput fuel st =
          treeBuildLoopAux newinput (newinput.length - st.idx) st) ∧
      (∀ input : JSString, 0 < (treeConstructor input).heap.length) := by
  refine ⟨treeBuildStep_idx_lt, ?_, ?_⟩
  · intro newinput fuel st h
    exact treeBuildLoopAux_stable newinput fuel (newinput.length - st.idx) st h (by omega)
  · intro input
    have h := treeBuildLoopAux_heapLen_le (parseInput input) (parseInput input).length
      { heap := [{ value := (input.get? 0).map (fun c => [c]), leftChild := none,
                   rightChild := none }], queue := [0], idx := 0 + 1 }
    simpa [treeConstructor, treeBuildLoop] using h

/-- Witness for C10 at concrete inputs. -/
theorem claim_C10_witness :
    (([0] : List Nat) ≠ [] ∧ 1 < ([some ['1'], none] : List (Option JSString)).length ∧
      1 < (treeBuildStep [some ['1'], none]
        { heap := [{ value := none, leftChild := none, rightChild := none }],
          queue := [0], idx := 1 }).idx) ∧
      treeBuildLoopAux [some ['1'], none] 5
          { heap := [{ value := none, leftChild := none, rightChild := none }],
            queue := [0], idx := 1 } =
        treeBuildLoopAux [some ['1'], none] 1
          { heap := [{ value := none, leftChild := none, rightChild := none }],
            queue := [0], idx := 1 } ∧
      0 < (treeConstructor ([] : JSString)).heap.length := by
  refine ⟨⟨by decide, by decide,
    claim_C10.1 [some ['1'], none]
      { heap := [{ value := none, leftChild := none, rightChild := none }],
        queue := [0], idx := 1 } (by decide) (by decide)⟩, ?_, claim_C10.2.2 []⟩
  exact claim_C10.2.1 [some ['1'], none] 5
    { heap := [{ value := none, leftChild := none, rightChild := none }],
      queue := [0], idx := 1 } (by decide)

/-- C1: for a nonempty input string the root's value is the singleton string
holding the first character of the *raw* input (not the first parsed token),
while the breadth-first fill is started at index `1` of the parsed token
array. -/
theorem claim_C1 (input : JSString) (c : Char) (rest : List Char) (h : input = c :: rest) :
    ((treeConstructor input).heap.get? 0).map BTreeNode.value = some (some [c]) ∧
      treeConstructor input =
        treeBuildLoop (parseInput input)
          { heap := [{ value := (input.get? 0).map (fun c => [c]), leftChild := none,
                       rightChild := none }],
            queue := [0], idx := 1 } := by
  constructor
  · have hval := treeBuildLoopAux_value (parseInput input) (parseInput input).length
      { heap := [{ value := (input.get? 0).map (fun c => [c]), leftChild := none,
                   rightChild := none }], queue := [0], idx := 0 + 1 } 0 (by simp)
    have : ((treeConstructor input).heap.get? 0).map BTreeNode.value =
        some ((input.get? 0).map (fun c => [c])) := by
      simpa [treeConstructor, treeBuildLoop] using hval
    rw [this, h]
    rfl
  · rfl

/-- Witness for C1 on the input `"42,7"`: the root is labelled `"4"` — the
first raw character — even though the first parsed token is `"42"`. -/
theorem claim_C1_witness :
    "42,7".toList = '4' :: "2,7".toList ∧
      ((treeConstructor "42,7".toList).heap.get? 0).map BTreeNode.value = some (some ['4']) := by
  refine ⟨by decide, ?_⟩
  exact (claim_C1 "42,7".toList '4' "2,7".toList (by decide)).1

/-! ## The layout pass: canvas characterisation -/

theorem recursivelyDrawNodes_node_eq (v : Option JSString) (l r : BTree) (c : List DrawCmd)
    (currentLevel : ℚ) (horizontalConfig : HC) :
    recursivelyDrawNodes (.node v l r) c currentLevel horizontalConfig =
      (let xPos := (horizontalConfig.xStart + horizontalConfig.xEnd) / 2
       let yPos := currentLevel * DEFAULT_NODE_CONFIG.nodeHeightSpacing
       let canvas1 := drawNode v c xPos yPos
       let leftRes :=
         match l with
         | .nil => (l, canvas1)
         | .node _ _ _ =>
           let res := recursivelyDrawNodes l canvas1 (currentLevel + 1)
             { xStart := horizontalConfig.xStart, xEnd := xPos }
           (res.1,
             connectEdges res.2
               { xStart := xPos, xEnd := (horizontalConfig.xStart + xPos) / 2 }
               { yStart := yPos + DEFAULT_NODE_CONFIG.radius,
                 yEnd := (currentLevel + 1) * DEFAULT_NODE_CONFIG.nodeHeightSpacing -
                   DEFAULT_NODE_CONFIG.radius })
       let rightRes :=
         match r with
         | .nil => (r, leftRes.2)
         | .node _ _ _ =>
           let res := recursivelyDrawNodes r leftRes.2 (currentLevel + 1)
             { xStart := xPos, xEnd := horizontalConfig.xEnd }
           (res.1,
             connectEdges res.2
               { xStart := xPos, xEnd := (xPos + horizontalConfig.xEnd) / 2 }
               { yStart := yPos + DEFAULT_NODE_CONFIG.radius,
                 yEnd := (currentLevel + 1) * DEFAULT_NODE_CONFIG.nodeHeightSpacing -
                   DEFAULT_NODE_CONFIG.radius })
       (.node v leftRes.1 rightRes.1, rightRes.2)) := rfl

theorem layoutCmds_node_eq (v : Option JSString) (l r : BTree) (currentLevel : ℚ) (hc : HC) :
    layoutCmds (.node v l r) currentLevel hc =
      (let xPos := (hc.xStart + hc.xEnd) / 2
       let yPos := currentLevel * DEFAULT_NODE_CONFIG.nodeHeightSpacing
       drawNode v [] xPos yPos ++
        ((match l with
          | .nil => []
          | .node _ _ _ =>
            layoutCmds l (currentLevel + 1) { xStart := hc.xStart, xEnd := xPos } ++
              connectEdges [] { xStart := xPos, xEnd := (hc.xStart + xPos) / 2 }
                { yStart := yPos + DEFAULT_NODE_CONFIG.radius,
                  yEnd := (currentLevel + 1) * DEFAULT_NODE_CONFIG.nodeHeightSpacing -
                    DEFAULT_NODE_CONFIG.radius }) ++
         (match r with
          | .nil => []
          | .node _ _ _ =>
            layoutCmds r (currentLevel + 1) { xStart := xPos, xEnd := hc.xEnd } ++
              connectEdges [] { xStart := xPos, xEnd := (xPos + hc.xEnd) / 2 }
                { yStart := yPos + DEFAULT_NODE_CONFIG.radius,
                  yEnd := (currentLevel + 1) * DEFAULT_NODE_CONFIG.nodeHeightSpacing -
                    DEFAULT_NODE_CONFIG.radius }))) := rfl

theorem layoutCalls_node_eq (v : Option JSString) (l r : BTree) (currentLevel : ℚ) (hc : HC) :
    layoutCalls (.node v l r) currentLevel hc =
      (let xPos := (hc.xStart + hc.xEnd) / 2
       (BTree.node v l r, currentLevel, hc) ::
        ((match l with
          | .nil => []
          | .node _ _ _ =>
            layoutCalls l (currentLevel + 1) { xStart := hc.xStart, xEnd := xPos }) ++
         (match r with
          | .nil => []
          | .node _ _ _ =>
            layoutCalls r (currentLevel + 1) { xStart := xPos, xEnd := hc.xEnd }))) := rfl

/-- The layout pass only appends to the canvas, and what it appends is
`layoutCmds`. -/
theorem recursivelyDrawNodes_snd (t : BTree) : ∀ (c : List DrawCmd) (lvl : ℚ) (hc : HC),
    (recursivelyDrawNodes t c lvl hc).2 = c ++ layoutCmds t lvl hc := by
  induction t with
  | nil => intro c lvl hc; simp [recursivelyDrawNodes, layoutCmds]
  | node v l r ihl ihr =>
    intro c lvl hc
    rw [recursivelyDrawNodes_node_eq, layoutCmds_node_eq]
    cases l with
    | nil =>
      cases r with
      | nil => simp [drawNode]
      | node rv rl rr =>
        simp only [ihr, drawNode, connectEdges]
        simp [List.append_assoc]
    | node lv ll lr =>
      cases r with
      | nil =>
        simp only [ihl, drawNode, connectEdges]
        simp [List.append_assoc]
      | node rv rl rr =>
        simp only [ihl, ihr, drawNode, connectEdges]
        simp [List.append_assoc]

/-- The layout pass never modifies the tree: the returned node graph is the
argument. -/
theorem recursivelyDrawNodes_fst (t : BTree) : ∀ (c : List DrawCmd) (lvl : ℚ) (hc : HC),
    (recursivelyDrawNodes t c lvl hc).1 = t := by
  induction t with
  | nil => intro c lvl hc; rfl
  | node v l r ihl ihr =>
    intro c lvl hc
    rw [recursivelyDrawNodes_node_eq]
    cases l with
    | nil =>
      cases r with
      | nil => rfl
      | node rv rl rr => simp [ihr]
    | node lv ll lr =>
      cases r with
      | nil => simp [ihl]
      | node rv rl rr => simp [ihl, ihr]

/-- C9: laying out and drawing a tree leaves every node unchanged — the tree
threaded through `recursivelyDrawNodes` (and through `drawBTree`) comes back
identical; only the canvas receives commands. -/
theorem claim_C9 :
    (∀ (t : BTree) (c : List DrawCmd) (lvl : ℚ) (hc : HC),
        (recursivelyDrawNodes t c lvl hc).1 = t) ∧
      (∀ (rootEl : BTree) (canvasEl : CanvasEl) (winW winH : ℚ),
        (drawBTree rootEl canvasEl winW winH).1 = rootEl) := by
  refine ⟨recursivelyDrawNodes_fst, ?_⟩
  intro rootEl canvasEl winW winH
  exact recursivelyDrawNodes_fst rootEl _ _ _

theorem drawnNodeXs_append (c₁ c₂ : List DrawCmd) :
    drawnNodeXs (c₁ ++ c₂) = drawnNodeXs c₁ ++ drawnNodeXs c₂ := by
  simp [drawnNodeXs, List.filterMap_append]

/-- Every node circle drawn while laying out `t` on a nondegenerate interval
`(a, b)` lies strictly inside that interval. -/
theorem layoutCmds_xs_bounds (t : BTree) : ∀ (lvl a b : ℚ), a < b →
    ∀ x ∈ drawnNodeXs (layoutCmds t lvl { xStart := a, xEnd := b }), a < x ∧ x < b := by
  induction t with
  | nil => intro lvl a b _ x hx; simp [layoutCmds, drawnNodeXs] at hx
  | node v l r ihl ihr =>
    intro lvl a b hab x hx
    rw [layoutCmds_node_eq] at hx
    simp only at hx
    rw [drawnNodeXs_append, drawnNodeXs_append] at hx
    have hmid₁ : a < (a + b) / 2 := by
      show a < (HC.xStart { xStart := a, xEnd := b } + HC.xEnd { xStart := a, xEnd := b }) / 2
      simp only [HC.xStart, HC.xEnd]
      linarith
    have hmid₂ : (a + b) / 2 < b := by linarith
    rcases List.mem_append.1 hx with hx1 | hx2
    · have : x = (a + b) / 2 := by
        simpa [drawNode, drawnNodeXs, List.filterMap] using hx1
      constructor <;> (rw [this]; linarith)
    · rcases List.mem_append.1 hx2 with hx3 | hx4
      · cases l with
        | nil => simp [drawnNodeXs] at hx3
        | node lv ll lr =>
          rw [drawnNodeXs_append] at hx3
          rcases List.mem_append.1 hx3 with hx5 | hx6
          · have := ihl (lvl + 1) a ((a + b) / 2) (by linarith) x (by simpa using hx5)
            exact ⟨this.1, by linarith [this.2]⟩
          · simp [connectEdges, drawnNodeXs, List.filterMap] at hx6
      · cases r with
        | nil => simp [drawnNodeXs] at hx4
        | node rv rl rr =>
          rw [drawnNodeXs_append] at hx4
          rcases List.mem_append.1 hx4 with hx5 | hx6
          · have := ihr (lvl + 1) ((a + b) / 2) b (by linarith) x (by simpa using hx5)
            exact ⟨by linarith [this.1], this.2⟩
          · simp [connectEdges, drawnNodeXs, List.filterMap] at hx6

theorem nodeXs_eq_layoutCmds (t : BTree) (lvl a b : ℚ) :
    nodeXs t lvl a b = drawnNodeXs (layoutCmds t lvl { xStart := a, xEnd := b }) := by
  unfold nodeXs
  rw [recursivelyDrawNodes_snd]
  simp

/-- Every reached layout call keeps a nondegenerate interval when the initial
one is nondegenerate. -/
theorem layoutCalls_interval_lt (t : BTree) : ∀ (lvl : ℚ) (hc : HC),
    hc.xStart < hc.xEnd → ∀ u lvl' hc', (u, lvl', hc') ∈ layoutCalls t lvl hc →
    hc'.xStart < hc'.xEnd := by
  induction t with
  | nil =>
    intro lvl hc hlt u lvl' hc' hmem
    simp [layoutCalls] at hmem
    rw [hmem.2.2]
    exact hlt
  | node v l r ihl ihr =>
    intro lvl hc hlt u lvl' hc' hmem
    rw [layoutCalls_node_eq] at hmem
    simp only at hmem
    rcases List.mem_cons.1 hmem with heq | hmem'
    · injection heq with h1 h2
      injection h2 with h2a h2b
      rw [h2b]
      exact hlt
    · rcases List.mem_append.1 hmem' with hL | hR
      · cases l with
        | nil => simp at hL
        | node lv ll lr =>
          exact ihl (lvl + 1)
            { xStart := hc.xStart, xEnd := (hc.xStart + hc.xEnd) / 2 }
            (by simp; linarith) u lvl' hc' hL
      · cases r with
        | nil => simp at hR
        | node rv rl rr =>
          exact ihr (lvl + 1)
            { xStart := (hc.xStart + hc.xEnd) / 2, xEnd := hc.xEnd }
            (by simp; linarith) u lvl' hc' hR

/-- Weak (≤) version of the interval invariant. -/
theorem layoutCalls_interval_le (t : BTree) : ∀ (lvl : ℚ) (hc : HC),
    hc.xStart ≤ hc.xEnd → ∀ u lvl' hc', (u, lvl', hc') ∈ layoutCalls t lvl hc →
    hc'.xStart ≤ hc'.xEnd := by
  induction t with
  | nil =>
    intro lvl hc hle u lvl' hc' hmem
    simp [layoutCalls] at hmem
    rw [hmem.2.2]
    exact hle
  | node v l r ihl ihr =>
    intro lvl hc hle u lvl' hc' hmem
    rw [layoutCalls_node_eq] at hmem
    simp only at hmem
    rcases List.mem_cons.1 hmem with heq | hmem'
    · injection heq with h1 h2
      injection h2 with h2a h2b
      rw [h2b]
      exact hle
    · rcases List.mem_append.1 hmem' with hL | hR
      · cases l with
        | nil => simp at hL
        | node lv ll lr =>
          exact ihl (lvl + 1)
            { xStart := hc.xStart, xEnd := (hc.xStart + hc.xEnd) / 2 }
            (by simp; linarith) u lvl' hc' hL
      · cases r with
        | nil => simp at hR
        | node rv rl rr =>
          exact ihr (lvl + 1)
            { xStart := (hc.xStart + hc.xEnd) / 2, xEnd := hc.xEnd }
            (by simp; linarith) u lvl' hc' hR

theorem layoutCalls_self_mem (t : BTree) (lvl : ℚ) (hc : HC) :
    (t, lvl, hc) ∈ layoutCalls t lvl hc := by
  cases t with
  | nil => simp [layoutCalls]
  | node v l r =>
    rw [layoutCalls_node_eq]
    exact List.mem_cons_self _ _

/-- Children of a reached call are reached at the next level with the two
half intervals split at the parent's midpoint. -/
theorem layoutCalls_child_mem (t : BTree) : ∀ (lvl : ℚ) (hc : HC) (u : BTree) (lvl' a b : ℚ)
    (v : Option JSString) (l r : BTree),
    (u, lvl', ({ xStart := a, xEnd := b } : HC)) ∈ layoutCalls t lvl hc → u = .node v l r →
    (l ≠ .nil → (l, lvl' + 1, ({ xStart := a, xEnd := (a + b) / 2 } : HC)) ∈ layoutCalls t lvl hc) ∧
    (r ≠ .nil → (r, lvl' + 1, ({ xStart := (a + b) / 2, xEnd := b } : HC)) ∈ layoutCalls t lvl hc) := by
  induction t with
  | nil =>
    intro lvl hc u lvl' a b v l r hmem hu
    simp [layoutCalls] at hmem
    rw [hmem.1] at hu
    cases hu
  | node tv tl tr ihl ihr =>
    intro lvl hc u lvl' a b v l r hmem hu
    rw [layoutCalls_node_eq] at hmem
    simp only at hmem
    rcases List.mem_cons.1 hmem with heq | hmem'
    · injection heq with h1 h2
      injection h2 with h2a h2b
      subst h2a
      rw [hu] at h1
      injection h1 with hv hl hr
      subst hv
      subst hl
      subst hr
      have ha : a = hc.xStart := by rw [← h2b]
      have hb : b = hc.xEnd := by rw [← h2b]
      subst ha
      subst hb
      constructor
      · intro hlnil
        rw [layoutCalls_node_eq]
        simp only
        apply List.mem_cons_of_mem
        apply List.mem_append_left
        cases l with
        | nil => exact absurd rfl hlnil
        | node lv ll lr =>
          exact layoutCalls_self_mem _ _ _
      · intro hrnil
        rw [layoutCalls_node_eq]
        simp only
        apply List.mem_cons_of_mem
        apply List.mem_append_right
        cases r with
        | nil => exact absurd rfl hrnil
        | node rv rl rr =>
          exact layoutCalls_self_mem _ _ _
    · rcases List.mem_append.1 hmem' with hL | hR
      · cases tl with
        | nil => simp at hL
        | node lv ll lr =>
          have := ihl _ _ u lvl' a b v l r hL hu
          rw [layoutCalls_node_eq]
          simp only
          refine ⟨fun h => ?_, fun h => ?_⟩
          · exact List.mem_cons_of_mem _ (List.mem_append_left _ (this.1 h))
          · exact List.mem_cons_of_mem _ (List.mem_append_left _ (this.2 h))
      · cases tr with
        | nil => simp at hR
        | node rv rl rr =>
          have := ihr _ _ u lvl' a b v l r hR hu
          rw [layoutCalls_node_eq]
          simp only
          refine ⟨fun h => ?_, fun h => ?_⟩
          · exact List.mem_cons_of_mem _ (List.mem_append_right _ (this.1 h))
          · exact List.mem_cons_of_mem _ (List.mem_append_right _ (this.2 h))

/-- C2: non-overlap.  For every tree laid out on a nondegenerate interval and
every reached node with two children, every node x-position drawn in the left
child's subtree (laid out on `[a, (a+b)/2]`) is strictly below every node
x-position drawn in the right child's subtree (laid out on `[(a+b)/2, b]`). -/
theorem claim_C2 (t : BTree) (lvl : ℚ) (hc : HC) (hne : hc.xStart < hc.xEnd)
    (u : BTree) (lvl' a b : ℚ)
    (hmem : (u, lvl', ({ xStart := a, xEnd := b } : HC)) ∈ layoutCalls t lvl hc)
    (v : Option JSString) (l r : BTree) (hu : u = .node v l r)
    (hl : l ≠ .nil) (hr : r ≠ .nil)
    (x₁ : ℚ) (hx₁ : x₁ ∈ nodeXs l (lvl' + 1) a ((a + b) / 2))
    (x₂ : ℚ) (hx₂ : x₂ ∈ nodeXs r (lvl' + 1) ((a + b) / 2) b) :
    x₁ < x₂ := by
  have hab : a < b := by
    have := layoutCalls_interval_lt t lvl hc hne u lvl'
      { xStart := a, xEnd := b } hmem
    simpa using this
  rw [nodeXs_eq_layoutCmds] at hx₁ hx₂
  have h₁ := layoutCmds_xs_bounds l (lvl' + 1) a ((a + b) / 2) (by linarith) x₁ hx₁
  have h₂ := layoutCmds_xs_bounds r (lvl' + 1) ((a + b) / 2) b (by linarith) x₂ hx₂
  linarith [h₁.2, h₂.1]

/-- Witness for C2: in the layout of a three-node tree on `[0, 8]`, the left
child is drawn at `x = 2` and the right child at `x = 6`, and `2 < 6`. -/
theorem claim_C2_witness :
    ((0 : ℚ) < 8) ∧
      (2 : ℚ) ∈ nodeXs (.node (some ['2']) .nil .nil) (1 / 2 + 1) 0 ((0 + 8) / 2) ∧
      (6 : ℚ) ∈ nodeXs (.node (some ['3']) .nil .nil) (1 / 2 + 1) ((0 + 8) / 2) 8 ∧
      (2 : ℚ) < 6 := by
  have hm₁ : (2 : ℚ) ∈ nodeXs (.node (some ['2']) .nil .nil) (1 / 2 + 1) 0 ((0 + 8) / 2) := by
    rw [nodeXs_eq_layoutCmds, layoutCmds_node_eq]
    norm_num [drawNode, drawnNodeXs, List.filterMap]
  have hm₂ : (6 : ℚ) ∈ nodeXs (.node (some ['3']) .nil .nil) (1 / 2 + 1) ((0 + 8) / 2) 8 := by
    rw [nodeXs_eq_layoutCmds, layoutCmds_node_eq]
    norm_num [drawNode, drawnNodeXs, List.filterMap]
  refine ⟨by norm_num, hm₁, hm₂, ?_⟩
  exact claim_C2
    (.node (some ['1']) (.node (some ['2']) .nil .nil) (.node (some ['3']) .nil .nil))
    (1 / 2) { xStart := 0, xEnd := 8 } (by norm_num)
    (.node (some ['1']) (.node (some ['2']) .nil .nil) (.node (some ['3']) .nil .nil))
    (1 / 2) 0 8 (layoutCalls_self_mem _ _ _)
    (some ['1']) (.node (some ['2']) .nil .nil) (.node (some ['3']) .nil .nil) rfl
    (by simp) (by simp) 2 hm₁ 6 hm₂

/-- C6: a node laid out on `[xStart, xEnd]` at level `L` is drawn at the
midpoint `x = (xStart + xEnd) / 2` and `y = L * nodeHeightSpacing` (the first
command it emits is its filled circle there); `drawBTree` starts the
recursion at level `0.5` on the interval of width `canvasWidth` centred in
the window; each reached node passes `[xStart, x]` to its left child and
`[x, xEnd]` to its right child at level `L + 1`; every interval passed down
satisfies `xStart ≤ xEnd` when the initial one does, and the initial one
always does since `canvasWidth ≥ 0`. -/
theorem claim_C6 :
    (∀ (v : Option JSString) (l r : BTree) (lvl : ℚ) (hc : HC),
        (recursivelyDrawNodes (.node v l r) [] lvl hc).2.head? =
          some (.fillCircle ((hc.xStart + hc.xEnd) / 2)
            (lvl * DEFAULT_NODE_CONFIG.nodeHeightSpacing) DEFAULT_NODE_CONFIG.radius
            "#000000".toList)) ∧
      (∀ (rootEl : BTree) (canvasEl : CanvasEl) (winW winH : ℚ),
        (drawBTree rootEl canvasEl winW winH).2.cmds =
          (recursivelyDrawNodes rootEl canvasEl.cmds (1 / 2)
            { xStart := winW / 2 - (getRequiredHeightWidth rootEl).canvasWidth / 2,
              xEnd := winW / 2 + (getRequiredHeightWidth rootEl).canvasWidth / 2 }).2) ∧
      (∀ (t : BTree) (lvl : ℚ) (hc : HC) (u : BTree) (lvl' a b : ℚ)
          (v : Option JSString) (l r : BTree),
        (u, lvl', ({ xStart := a, xEnd := b } : HC)) ∈ layoutCalls t lvl hc →
        u = .node v l r →
        (l ≠ .nil →
          (l, lvl' + 1, ({ xStart := a, xEnd := (a + b) / 2 } : HC)) ∈ layoutCalls t lvl hc) ∧
        (r ≠ .nil →
          (r, lvl' + 1, ({ xStart := (a + b) / 2, xEnd := b } : HC)) ∈ layoutCalls t lvl hc)) ∧
      (∀ (t : BTree) (lvl : ℚ) (hc : HC), hc.xStart ≤ hc.xEnd →
        ∀ u lvl' hc', (u, lvl', hc') ∈ layoutCalls t lvl hc → hc'.xStart ≤ hc'.xEnd) ∧
      (∀ rootEl : BTree, (0 : ℚ) ≤ (getRequiredHeightWidth rootEl).canvasWidth) := by
  refine ⟨?_, ?_, layoutCalls_child_mem, layoutCalls_interval_le, ?_⟩
  · intro v l r lvl hc
    rw [recursivelyDrawNodes_snd, List.nil_append, layoutCmds_node_eq]
    simp [drawNode]
  · intro rootEl canvasEl winW winH
    rfl
  · intro rootEl
    show (0 : ℚ) ≤ 2 ^ getBTreeHeight rootEl * DEFAULT_NODE_CONFIG.nodeWidthSpacing
    simp only [DEFAULT_NODE_CONFIG]
    positivity

/-- Witness for C6: the layout of a two-node tree on `[0, 8]` draws the root
circle at `(4, 45)` (midpoint, level `0.5` times spacing `90`), its left
child is reached at level `1.5` on the half interval `[0, 4]`, and the
intervals stay ordered. -/
theorem claim_C6_witness :
    ((recursivelyDrawNodes (.node (some ['1']) .nil .nil) [] (1 / 2)
        { xStart := 0, xEnd := 8 }).2.head? =
      some (.fillCircle 4 45 20 "#000000".toList)) ∧
      ((.node (some ['2']) .nil .nil, (1 : ℚ) / 2 + 1,
          ({ xStart := 0, xEnd := (0 + 8) / 2 } : HC)) ∈
        layoutCalls (.node (some ['1']) (.node (some ['2']) .nil .nil) .nil) (1 / 2)
          { xStart := 0, xEnd := 8 }) ∧
      (∀ u lvl' hc',
        (u, lvl', hc') ∈ layoutCalls (.node (some ['1']) .nil .nil) (1 / 2)
          ({ xStart := 0, xEnd := 8 } : HC) → hc'.xStart ≤ hc'.xEnd) := by
  refine ⟨?_, ?_, ?_⟩
  · have h := claim_C6.1 (some ['1']) .nil .nil (1 / 2) { xStart := 0, xEnd := 8 }
    rw [h]
    norm_num [DEFAULT_NODE_CONFIG]
  · exact (claim_C6.2.2.1 (.node (some ['1']) (.node (some ['2']) .nil .nil) .nil)
      (1 / 2) { xStart := 0, xEnd := 8 }
      (.node (some ['1']) (.node (some ['2']) .nil .nil) .nil)
      (1 / 2) 0 8 (some ['1']) (.node (some ['2']) .nil .nil) .nil
      (layoutCalls_self_mem _ _ _) rfl).1 (by simp)
  · intro u lvl' hc' hmem
    exact claim_C6.2.2.2.1 (.node (some ['1']) .nil .nil) (1 / 2)
      { xStart := 0, xEnd := 8 } (by norm_num) u lvl' hc' hmem

/-! ## Heap shape invariants for the breadth-first builder -/

/-- The child slot selected by `s` (`true` = left). -/
def slotOf (nd : BTreeNode) (s : Bool) : Option Nat :=
  if s then nd.leftChild else nd.rightChild

/-- Node `p`'s slot `s` holds a pointer to node `j`. -/
def pointsTo (h : List BTreeNode) (p : Nat) (s : Bool) (j : Nat) : Prop :=
  ∃ nd, h.get? p = some nd ∧ slotOf nd s = some j

/-- The shape invariant of heaps produced by the builder: child pointers go
strictly forward and stay in range, and every node except the root has
exactly one parent slot. -/
structure HeapInv (h : List BTreeNode) : Prop where
  childGt : ∀ p s j, pointsTo h p s j → p < j
  childLt : ∀ p s j, pointsTo h p s j → j < h.length
  parentEx : ∀ j, 1 ≤ j → j < h.length → ∃ p s, pointsTo h p s j
  parentUniq : ∀ p₁ s₁ p₂ s₂ j, pointsTo h p₁ s₁ j → pointsTo h p₂ s₂ j → p₁ = p₂ ∧ s₁ = s₂

/-- Node `q` exists and has no children yet. -/
def childless (h : List BTreeNode) (q : Nat) : Prop :=
  ∃ nd, h.get? q = some nd ∧ nd.leftChild = none ∧ nd.rightChild = none

/-- Invariant of the whole loop state: heap shape plus the pending queue
holding distinct, still-childless nodes. -/
def BuildInv (st : BuildState) : Prop :=
  HeapInv st.heap ∧ (∀ q ∈ st.queue, childless st.heap q) ∧ st.queue.Nodup

theorem get?_some_lt {α : Type} (l : List α) (n : Nat) (a : α) (h : l.get? n = some a) :
    n < l.length := by
  by_contra hn
  rw [List.get?_eq_none.2 (by omega)] at h
  cases h

theorem get?_of_lt {α : Type} (l : List α) (n : Nat) (hn : n < l.length) :
    ∃ a, l.get? n = some a :=
  ⟨l.get ⟨n, hn⟩, List.get?_eq_get hn⟩

/-! ## Spanning: the tree extracted from an invariant heap visits every node
exactly once -/

theorem nodeCount_toTree_eq (h : List BTreeNode) : ∀ (fuel i : Nat),
    nodeCount (toTree h fuel i) = (idList h fuel i).length := by
  intro fuel
  induction fuel with
  | zero => intro i; rfl
  | succ fuel ih =>
    intro i
    cases hget : h.get? i with
    | none => simp only [toTree, idList, hget]; rfl
    | some nd =>
      simp only [toTree, idList, hget]
      cases hl : nd.leftChild with
      | none =>
        cases hr : nd.rightChild with
        | none => simp [nodeCount]
        | some r => simp [nodeCount, ih]; omega
      | some l =>
        cases hr : nd.rightChild with
        | none => simp [nodeCount, ih]; omega
        | some r => simp [nodeCount, ih]; omega

/-- Out of range, the visit list is empty. -/
theorem idListC_nil (h : List BTreeNode) (i : Nat) (hi : h.length ≤ i) :
    idList h h.length i = [] := by
  cases hlen : h.length with
  | zero => rfl
  | succ m =>
    have hnone : h.get? i = none := List.get?_eq_none.2 (by omega)
    simp only [idList, hnone]

/-- Any fuel covering the forward distance to the end of the heap yields the
same visit list. -/
theorem idList_stable (h : List BTreeNode) (hInv : HeapInv h) : ∀ (fuel₁ fuel₂ i : Nat),
    h.length ≤ fuel₁ + i → h.length ≤ fuel₂ + i → idList h fuel₁ i = idList h fuel₂ i := by
  intro fuel₁
  induction fuel₁ with
  | zero =>
    intro fuel₂ i h1 _
    have hnone : h.get? i = none := List.get?_eq_none.2 (by omega)
    cases fuel₂ with
    | zero => rfl
    | succ fuel₂ => simp only [idList, hnone]
  | succ fuel₁ ih =>
    intro fuel₂ i h1 h2
    by_cases hi : i < h.length
    · obtain ⟨nd, hnd⟩ := get?_of_lt h i hi
      cases fuel₂ with
      | zero => omega
      | succ fuel₂ =>
        simp only [idList, hnd]
        congr 1
        congr 1
        · cases hl : nd.leftChild with
          | none => rfl
          | some l =>
            have hgt : i < l := hInv.childGt i true l ⟨nd, hnd, by simp [slotOf, hl]⟩
            exact ih fuel₂ l (by omega) (by omega)
        · cases hr : nd.rightChild with
          | none => rfl
          | some r =>
            have hgt : i < r := hInv.childGt i false r ⟨nd, hnd, by simp [slotOf, hr]⟩
            exact ih fuel₂ r (by omega) (by omega)
    · have hnone : h.get? i = none := List.get?_eq_none.2 (by omega)
      cases fuel₂ with
      | zero => simp only [idList, hnone]
      | succ fuel₂ => simp only [idList, hnone]

/-- Unfolding of the canonical (`fuel = h.length`) visit list at an existing
node. -/
theorem idListC_unfold (h : List BTreeNode) (hInv : HeapInv h) (i : Nat) (nd : BTreeNode)
    (hnd : h.get? i = some nd) :
    idList h h.length i =
      i :: ((match nd.leftChild with
             | some l => idList h h.length l
             | none => []) ++
            (match nd.rightChild with
             | some r => idList h h.length r
             | none => [])) := by
  have hi : i < h.length := get?_some_lt h i nd hnd
  obtain ⟨m, hm⟩ : ∃ m, h.length = m + 1 := ⟨h.length - 1, by omega⟩
  rw [hm]
  simp only [idList, hnd]
  congr 1
  congr 1
  · cases hl : nd.leftChild with
    | none => rfl
    | some l =>
      have hgt : i < l := hInv.childGt i true l ⟨nd, hnd, by simp [slotOf, hl]⟩
      have hlt : l < h.length := hInv.childLt i true l ⟨nd, hnd, by simp [slotOf, hl]⟩
      exact idList_stable h hInv m (m + 1) l (by omega) (by omega)
  · cases hr : nd.rightChild with
    | none => rfl
    | some r =>
      have hgt : i < r := hInv.childGt i false r ⟨nd, hnd, by simp [slotOf, hr]⟩
      have hlt : r < h.length := hInv.childLt i false r ⟨nd, hnd, by simp [slotOf, hr]⟩
      exact idList_stable h hInv m (m + 1) r (by omega) (by omega)

/-- Every visited id is between the start id and the heap length. -/
theorem idList_range (h : List BTreeNode) (hInv : HeapInv h) : ∀ (fuel i j : Nat),
    j ∈ idList h fuel i → i ≤ j ∧ j < h.length := by
  intro fuel
  induction fuel with
  | zero => intro i j hj; simp [idList] at hj
  | succ fuel ih =>
    intro i j hj
    cases hget : h.get? i with
    | none =>
      simp only [idList, hget] at hj
      exact absurd hj (List.not_mem_nil _)
    | some nd =>
      simp only [idList, hget, List.mem_cons] at hj
      rcases hj with rfl | hj
      · exact ⟨Nat.le_refl _, get?_some_lt h j nd hget⟩
      rcases List.mem_append.1 hj with hL | hR
      · cases hl : nd.leftChild with
        | none => simp [hl] at hL
        | some l =>
          simp only [hl] at hL
          have hgt : i < l := hInv.childGt i true l ⟨nd, hget, by simp [slotOf, hl]⟩
          have := ih l j hL
          exact ⟨by omega, this.2⟩
      · cases hr : nd.rightChild with
        | none => simp [hr] at hR
        | some r =>
          simp only [hr] at hR
          have hgt : i < r := hInv.childGt i false r ⟨nd, hget, by simp [slotOf, hr]⟩
          have := ih r j hR
          exact ⟨by omega, this.2⟩

/-- Every visited id other than the start is pointed to by some visited id. -/
theorem idList_chain (h : List BTreeNode) : ∀ (fuel i j : Nat), j ∈ idList h fuel i →
    j = i ∨ ∃ p s, p ∈ idList h fuel i ∧ pointsTo h p s j := by
  intro fuel
  induction fuel with
  | zero => intro i j hj; simp [idList] at hj
  | succ fuel ih =>
    intro i j hj
    cases hget : h.get? i with
    | none =>
      simp only [idList, hget] at hj
      exact absurd hj (List.not_mem_nil _)
    | some nd =>
      simp only [idList, hget, List.mem_cons] at hj
      rcases hj with rfl | hj
      · exact Or.inl rfl
      rcases List.mem_append.1 hj with hL | hR
      · cases hl : nd.leftChild with
        | none => simp [hl] at hL
        | some l =>
          simp only [hl] at hL
          rcases ih l j hL with rfl | ⟨p, s, hp, hpt⟩
          · refine Or.inr ⟨i, true, ?_, nd, hget, by simp [slotOf, hl]⟩
            simp only [idList, hget]
            exact List.mem_cons_self _ _
          · refine Or.inr ⟨p, s, ?_, hpt⟩
            simp only [idList, hget, hl]
            exact List.mem_cons_of_mem _ (List.mem_append_left _ hp)
      · cases hr : nd.rightChild with
        | none => simp [hr] at hR
        | some r =>
          simp only [hr] at hR
          rcases ih r j hR with rfl | ⟨p, s, hp, hpt⟩
          · refine Or.inr ⟨i, false, ?_, nd, hget, by simp [slotOf, hr]⟩
            simp only [idList, hget]
            exact List.mem_cons_self _ _
          · refine Or.inr ⟨p, s, ?_, hpt⟩
            simp only [idList, hget, hr]
            exact List.mem_cons_of_mem _ (List.mem_append_right _ hp)

theorem idListC_self_mem (h : List BTreeNode) (hInv : HeapInv h) (i : Nat)
    (hi : i < h.length) : i ∈ idList h h.length i := by
  obtain ⟨nd, hnd⟩ := get?_of_lt h i hi
  rw [idListC_unfold h hInv i nd hnd]
  exact List.mem_cons_self _ _

/-- The canonical visit list is closed under following child pointers. -/
theorem idListC_closed (h : List BTreeNode) (hInv : HeapInv h) : ∀ (n i p : Nat) (s : Bool)
    (j : Nat), h.length - i ≤ n → p ∈ idList h h.length i → pointsTo h p s j →
    j ∈ idList h h.length i := by
  intro n
  induction n with
  | zero =>
    intro i p s j hn hp _
    rw [idListC_nil h i (by omega)] at hp
    exact absurd hp (List.not_mem_nil _)
  | succ n ihn =>
    intro i p s j hn hp hpt
    by_cases hi : i < h.length
    · obtain ⟨nd, hnd⟩ := get?_of_lt h i hi
      rw [idListC_unfold h hInv i nd hnd] at hp ⊢
      rcases List.mem_cons.1 hp with rfl | hp'
      · -- the pointer starts at the head node itself
        have hjlt : j < h.length := hInv.childLt _ s j hpt
        obtain ⟨nd₂, hnd₂, hslot⟩ := hpt
        rw [hnd] at hnd₂
        injection hnd₂ with hnd₂
        subst hnd₂
        cases s with
        | true =>
          simp only [slotOf, if_true] at hslot
          simp only [hslot]
          exact List.mem_cons_of_mem _
            (List.mem_append_left _ (idListC_self_mem h hInv j hjlt))
        | false =>
          simp only [slotOf, Bool.false_eq_true, if_false] at hslot
          simp only [hslot]
          exact List.mem_cons_of_mem _
            (List.mem_append_right _ (idListC_self_mem h hInv j hjlt))
      · rcases List.mem_append.1 hp' with hL | hR
        · cases hl : nd.leftChild with
          | none => simp [hl] at hL
          | some l =>
            simp only [hl] at hL ⊢
            have hgt : p < l → False := fun _ => False.elim (by
              have := idList_range h hInv h.length l p hL
              omega)
            have hil : i < l := hInv.childGt i true l ⟨nd, hnd, by simp [slotOf, hl]⟩
            refine List.mem_cons_of_mem _ (List.mem_append_left _ ?_)
            exact ihn l p s j (by omega) hL hpt
        · cases hr : nd.rightChild with
          | none => simp [hr] at hR
          | some r =>
            simp only [hr] at hR ⊢
            have hir : i < r := hInv.childGt i false r ⟨nd, hnd, by simp [slotOf, hr]⟩
            refine List.mem_cons_of_mem _ (List.mem_append_right _ ?_)
            exact ihn r p s j (by omega) hR hpt
    · rw [idListC_nil h i (by omega)] at hp
      exact absurd hp (List.not_mem_nil _)

/-- Completeness: starting from the root, every heap id is visited. -/
theorem idListC_complete (h : List BTreeNode) (hInv : HeapInv h) (hlen : 0 < h.length) :
    ∀ j, j < h.length → j ∈ idList h h.length 0 := by
  intro j
  induction j using Nat.strong_induction_on with
  | _ j ihj =>
    intro hj
    rcases Nat.eq_zero_or_pos j with rfl | hj1
    · exact idListC_self_mem h hInv 0 hlen
    · obtain ⟨p, s, hpt⟩ := hInv.parentEx j hj1 hj
      have hpj : p < j := hInv.childGt p s j hpt
      have hp : p ∈ idList h h.length 0 := ihj p hpj (by omega)
      exact idListC_closed h hInv h.length 0 p s j (by omega) hp hpt

/-- Sibling subtrees are disjoint as id sets: parents are unique. -/
theorem idListC_disjoint (h : List BTreeNode) (hInv : HeapInv h) (i : Nat) (nd : BTreeNode)
    (hnd : h.get? i = some nd) (l r : Nat) (hl : nd.leftChild = some l)
    (hr : nd.rightChild = some r) :
    ∀ j, ¬(j ∈ idList h h.length l ∧ j ∈ idList h h.length r) := by
  have hptl : pointsTo h i true l := ⟨nd, hnd, by simp [slotOf, hl]⟩
  have hptr : pointsTo h i false r := ⟨nd, hnd, by simp [slotOf, hr]⟩
  have hil : i < l := hInv.childGt _ _ _ hptl
  have hir : i < r := hInv.childGt _ _ _ hptr
  have hlr : l ≠ r := by
    intro he
    subst he
    have := hInv.parentUniq i true i false l hptl hptr
    simp at this
  intro j
  induction j using Nat.strong_induction_on with
  | _ j ihj =>
    rintro ⟨hjl, hjr⟩
    rcases idList_chain h h.length l j hjl with rfl | ⟨p₁, s₁, hp₁, hpt₁⟩
    · rcases idList_chain h h.length r j hjr with he | ⟨p₂, s₂, hp₂, hpt₂⟩
      · exact hlr he
      · obtain ⟨hpi, -⟩ := hInv.parentUniq p₂ s₂ i true j hpt₂ hptl
        have hrange := idList_range h hInv h.length r p₂ hp₂
        omega
    · rcases idList_chain h h.length r j hjr with rfl | ⟨p₂, s₂, hp₂, hpt₂⟩
      · obtain ⟨hpi, -⟩ := hInv.parentUniq p₁ s₁ i false j hpt₁ hptr
        have hrange := idList_range h hInv h.length l p₁ hp₁
        omega
      · obtain ⟨hpp, hss⟩ := hInv.parentUniq p₁ s₁ p₂ s₂ j hpt₁ hpt₂
        have hpj : p₁ < j := hInv.childGt _ _ _ hpt₁
        exact ihj p₁ hpj ⟨hp₁, hpp ▸ hp₂⟩

/-- The canonical visit list has no duplicates. -/
theorem idListC_nodup (h : List BTreeNode) (hInv : HeapInv h) : ∀ (n i : Nat),
    h.length - i ≤ n → (idList h h.length i).Nodup := by
  intro n
  induction n with
  | zero =>
    intro i hn
    rw [idListC_nil h i (by omega)]
    exact List.nodup_nil
  | succ n ihn =>
    intro i hn
    by_cases hi : i < h.length
    · obtain ⟨nd, hnd⟩ := get?_of_lt h i hi
      rw [idListC_unfold h hInv i nd hnd]
      refine List.nodup_cons.2 ⟨?_, ?_⟩
      · intro hmem
        rcases List.mem_append.1 hmem with hL | hR
        · cases hl : nd.leftChild with
          | none => simp [hl] at hL
          | some l =>
            simp only [hl] at hL
            have hrange := idList_range h hInv h.length l i hL
            have hil : i < l := hInv.childGt i true l ⟨nd, hnd, by simp [slotOf, hl]⟩
            omega
        · cases hr : nd.rightChild with
          | none => simp [hr] at hR
          | some r =>
            simp only [hr] at hR
            have hrange := idList_range h hInv h.length r i hR
            have hir : i < r := hInv.childGt i false r ⟨nd, hnd, by simp [slotOf, hr]⟩
            omega
      · cases hl : nd.leftChild with
        | none =>
          simp only [hl, List.nil_append]
          cases hr : nd.rightChild with
          | none => exact List.nodup_nil
          | some r =>
            have hir : i < r := hInv.childGt i false r ⟨nd, hnd, by simp [slotOf, hr]⟩
            exact ihn r (by omega)
        | some l =>
          have hil : i < l := hInv.childGt i true l ⟨nd, hnd, by simp [slotOf, hl]⟩
          cases hr : nd.rightChild with
          | none =>
            simp only [hl, hr, List.append_nil]
            exact ihn l (by omega)
          | some r =>
            have hir : i < r := hInv.childGt i false r ⟨nd, hnd, by simp [slotOf, hr]⟩
            simp only [hl, hr]
            rw [List.nodup_append]
            refine ⟨ihn l (by omega), ihn r (by omega), ?_⟩
            intro a ha hb
            exact idListC_disjoint h hInv i nd hnd l r hl hr a ⟨ha, hb⟩
    · rw [idListC_nil h i (by omega)]
      exact List.nodup_nil

/-- The canonical root visit list is a permutation of all heap positions. -/
theorem idListC_length (h : List BTreeNode) (hInv : HeapInv h) (hlen : 0 < h.length) :
    (idList h h.length 0).length = h.length := by
  have hnd : (idList h h.length 0).Nodup := idListC_nodup h hInv h.length 0 (by omega)
  have hsub : idList h h.length 0 ⊆ List.range h.length := by
    intro j hj
    exact List.mem_range.2 (idList_range h hInv h.length 0 j hj).2
  have hsub2 : List.range h.length ⊆ idList h h.length 0 := by
    intro j hj
    exact idListC_complete h hInv hlen j (List.mem_range.1 hj)
  have h1 := (hnd.subperm hsub).length_le
  have h2 := ((List.nodup_range _).subperm hsub2).length_le
  simp only [List.length_range] at h1 h2
  omega

/-- Spanning: the tree extracted from an invariant heap has exactly as many
nodes as the heap. -/
theorem nodeCount_spanning (h : List BTreeNode) (hInv : HeapInv h) (hlen : 0 < h.length) :
    nodeCount (toTree h h.length 0) = h.length := by
  rw [nodeCount_toTree_eq]
  exact idListC_length h hInv hlen

/-! ## Preservation of the heap invariants by the builder -/

/-- Characterisation of the pointers of the heap after one allocation:
append a childless node `x` and point one previously-empty slot of `nodeId`
at it. -/
theorem pointsTo_update (h : List BTreeNode) (x : BTreeNode)
    (hxl : x.leftChild = none) (hxr : x.rightChild = none)
    (nodeId : Nat) (nd : BTreeNode) (hnd : h.get? nodeId = some nd)
    (isLeft : Bool) (nd' : BTreeNode)
    (hnd'eq : nd' = if isLeft then nd.setLeftChild (some h.length)
                    else nd.setRightChild (some h.length))
    (hslot : slotOf nd isLeft = none) (p : Nat) (s : Bool) (j : Nat) :
    pointsTo ((h ++ [x]).set nodeId nd') p s j ↔
      (p = nodeId ∧ s = isLeft ∧ j = h.length) ∨ pointsTo h p s j := by
  have hlen : nodeId < h.length := get?_some_lt h nodeId nd hnd
  have hs1 : slotOf nd' isLeft = some h.length := by
    subst hnd'eq
    cases isLeft <;> simp [slotOf, BTreeNode.setLeftChild, BTreeNode.setRightChild]
  have hs2 : ∀ s' : Bool, s' ≠ isLeft → slotOf nd' s' = slotOf nd s' := by
    subst hnd'eq
    intro s' hs'
    cases isLeft <;> cases s' <;>
      simp_all [slotOf, BTreeNode.setLeftChild, BTreeNode.setRightChild]
  have hget' : ∀ k, ((h ++ [x]).set nodeId nd').get? k =
      if k = nodeId then some nd' else (h ++ [x]).get? k := by
    intro k
    by_cases hk : k = nodeId
    · subst hk
      rw [if_pos rfl]
      exact List.get?_set_eq_of_lt _ (by simp; omega)
    · rw [if_neg hk]
      exact List.get?_set_ne _ _ (fun he => hk he.symm)
  constructor
  · rintro ⟨nd₂, hget2, hslot2⟩
    rw [hget'] at hget2
    by_cases hk : p = nodeId
    · rw [if_pos hk] at hget2
      injection hget2 with he
      subst he
      by_cases hsl : s = isLeft
      · subst hsl
        rw [hs1] at hslot2
        injection hslot2 with he2
        exact Or.inl ⟨hk, rfl, he2.symm⟩
      · subst hk
        exact Or.inr ⟨nd, hnd, by rw [← hs2 s hsl]; exact hslot2⟩
    · rw [if_neg hk] at hget2
      by_cases hp : p < h.length
      · rw [List.get?_append hp] at hget2
        exact Or.inr ⟨nd₂, hget2, hslot2⟩
      · rcases Nat.eq_or_lt_of_le (Nat.le_of_not_lt hp) with he | hgt
        · rw [← he, List.get?_concat_length] at hget2
          injection hget2 with he2
          subst he2
          cases s <;> simp [slotOf, hxl, hxr] at hslot2
        · rw [List.get?_eq_none.2 (by simp; omega)] at hget2
          cases hget2
  · rintro (⟨rfl, rfl, rfl⟩ | ⟨nd₂, hget2, hslot2⟩)
    · exact ⟨nd', by rw [hget', if_pos rfl], hs1⟩
    · by_cases hk : p = nodeId
      · subst hk
        rw [hnd] at hget2
        injection hget2 with he
        subst he
        have hsl : s ≠ isLeft := by
          intro he2
          subst he2
          rw [hslot] at hslot2
          cases hslot2
        exact ⟨nd', by rw [hget', if_pos rfl], by rw [hs2 s hsl]; exact hslot2⟩
      · have hp : p < h.length := get?_some_lt h p nd₂ hget2
        refine ⟨nd₂, ?_, hslot2⟩
        rw [hget' p, if_neg hk, List.get?_append hp]
        exact hget2

/-- The heap shape invariant survives one allocation. -/
theorem heapInv_update (h : List BTreeNode) (x : BTreeNode)
    (hxl : x.leftChild = none) (hxr : x.rightChild = none)
    (nodeId : Nat) (nd : BTreeNode) (hnd : h.get? nodeId = some nd)
    (isLeft : Bool) (nd' : BTreeNode)
    (hnd'eq : nd' = if isLeft then nd.setLeftChild (some h.length)
                    else nd.setRightChild (some h.length))
    (hslot : slotOf nd isLeft = none) (hInv : HeapInv h) :
    HeapInv ((h ++ [x]).set nodeId nd') := by
  have hlen : nodeId < h.length := get?_some_lt h nodeId nd hnd
  have hlength : ((h ++ [x]).set nodeId nd').length = h.length + 1 := by simp
  have hiff := pointsTo_update h x hxl hxr nodeId nd hnd isLeft nd' hnd'eq hslot
  constructor
  · intro p s j hpt
    rcases (hiff p s j).1 hpt with ⟨rfl, rfl, rfl⟩ | hp
    · exact hlen
    · exact hInv.childGt p s j hp
  · intro p s j hpt
    rw [hlength]
    rcases (hiff p s j).1 hpt with ⟨rfl, rfl, rfl⟩ | hp
    · omega
    · have := hInv.childLt p s j hp
      omega
  · intro j hj1 hj2
    rw [hlength] at hj2
    by_cases hjl : j < h.length
    · obtain ⟨p, s, hpt⟩ := hInv.parentEx j hj1 hjl
      exact ⟨p, s, (hiff p s j).2 (Or.inr hpt)⟩
    · have hje : j = h.length := by omega
      subst hje
      exact ⟨nodeId, isLeft, (hiff _ _ _).2 (Or.inl ⟨rfl, rfl, rfl⟩)⟩
  · intro p₁ s₁ p₂ s₂ j h1 h2
    rcases (hiff p₁ s₁ j).1 h1 with ⟨rfl, rfl, rfl⟩ | hp1
    · rcases (hiff p₂ s₂ h.length).1 h2 with ⟨he1, he2, -⟩ | hp2
      · exact ⟨he1.symm, he2.symm⟩
      · have := hInv.childLt p₂ s₂ h.length hp2
        omega
    · rcases (hiff p₂ s₂ j).1 h2 with ⟨-, -, he3⟩ | hp2
      · subst he3
        have := hInv.childLt p₁ s₁ h.length hp1
        omega
      · exact hInv.parentUniq p₁ s₁ p₂ s₂ j hp1 hp2

/-- The full invariant bundle survives one child-slot block of the loop body,
together with the facts needed to chain into the next block. -/
theorem processChildSlot_inv (newinput : List (Option JSString)) (nodeId : Nat) (isLeft : Bool)
    (st : BuildState) (nd : BTreeNode)
    (hInv : HeapInv st.heap)
    (hq : ∀ q ∈ st.queue, childless st.heap q)
    (hnodup : st.queue.Nodup)
    (hnot : nodeId ∉ st.queue)
    (hnd : st.heap.get? nodeId = some nd)
    (hslot : slotOf nd isLeft = none) :
    HeapInv (processChildSlot newinput nodeId isLeft st).heap ∧
      (∀ q ∈ (processChildSlot newinput nodeId isLeft st).queue,
        childless (processChildSlot newinput nodeId isLeft st).heap q) ∧
      (processChildSlot newinput nodeId isLeft st).queue.Nodup ∧
      nodeId ∉ (processChildSlot newinput nodeId isLeft st).queue ∧
      ∃ nd₂, (processChildSlot newinput nodeId isLeft st).heap.get? nodeId = some nd₂ ∧
        slotOf nd₂ (!isLeft) = slotOf nd (!isLeft) := by
  have hlen : nodeId < st.heap.length := get?_some_lt st.heap nodeId nd hnd
  unfold processChildSlot
  split
  · split
    · rename_i v heq
      simp only
      have hnd1 : (st.heap ++
          [({ value := some v, leftChild := none, rightChild := none } : BTreeNode)]).get?
          nodeId = some nd := by
        rw [List.get?_append hlen]
        exact hnd
      rw [hnd1]
      set x : BTreeNode := { value := some v, leftChild := none, rightChild := none } with hx
      set nd' : BTreeNode := if isLeft then nd.setLeftChild (some st.heap.length)
        else nd.setRightChild (some st.heap.length) with hnd'
      have hgetnew : ((st.heap ++ [x]).set nodeId nd').get? nodeId = some nd' :=
        List.get?_set_eq_of_lt _ (by simp; omega)
      have hgetold : ∀ k, k ≠ nodeId → k < st.heap.length →
          ((st.heap ++ [x]).set nodeId nd').get? k = st.heap.get? k := by
        intro k hk hklt
        rw [List.get?_set_ne _ _ (fun he => hk he.symm), List.get?_append hklt]
      have hgetfresh : ((st.heap ++ [x]).set nodeId nd').get? st.heap.length = some x := by
        rw [List.get?_set_ne _ _ (by omega), List.get?_concat_length]
      refine ⟨heapInv_update st.heap x rfl rfl nodeId nd hnd isLeft nd' hnd' hslot hInv,
        ?_, ?_, ?_, ?_⟩
      · intro q hmem
        rcases List.mem_append.1 hmem with hq1 | hq2
        · obtain ⟨ndq, hndq, hql, hqr⟩ := hq q hq1
          have hqlt : q < st.heap.length := get?_some_lt st.heap q ndq hndq
          have hqne : q ≠ nodeId := fun he => hnot (he ▸ hq1)
          exact ⟨ndq, by rw [hgetold q hqne hqlt]; exact hndq, hql, hqr⟩
        · have hqe : q = st.heap.length := by simpa using hq2
          subst hqe
          exact ⟨x, hgetfresh, rfl, rfl⟩
      · rw [List.nodup_append]
        refine ⟨hnodup, List.nodup_singleton _, ?_⟩
        intro a ha hb
        have hae : a = st.heap.length := by simpa using hb
        obtain ⟨nda, hnda, -, -⟩ := hq a ha
        have := get?_some_lt st.heap a nda hnda
        omega
      · intro hmem
        rcases List.mem_append.1 hmem with hm1 | hm2
        · exact hnot hm1
        · have : nodeId = st.heap.length := by simpa using hm2
          omega
      · refine ⟨nd', hgetnew, ?_⟩
        rw [hnd']
        cases isLeft <;>
          simp [slotOf, BTreeNode.setLeftChild, BTreeNode.setRightChild]
    · exact ⟨hInv, hq, hnodup, hnot, nd, hnd, rfl⟩
    · exact ⟨hInv, hq, hnodup, hnot, nd, hnd, rfl⟩
  · exact ⟨hInv, hq, hnodup, hnot, nd, hnd, rfl⟩

/-- The loop-state invariant survives one full iteration. -/
theorem treeBuildStep_inv (newinput : List (Option JSString)) (st : BuildState)
    (hInv : BuildInv st) : BuildInv (treeBuildStep newinput st) := by
  obtain ⟨hheap, hq, hnodup⟩ := hInv
  unfold treeBuildStep
  match hqq : st.queue with
  | [] => exact ⟨hheap, hq, hnodup⟩
  | nodeId :: rest =>
    show BuildInv (processChildSlot newinput nodeId false
      (processChildSlot newinput nodeId true { st with queue := rest }))
    obtain ⟨nd, hnd, hl, hr⟩ := hq nodeId (by rw [hqq]; exact List.mem_cons_self _ _)
    have hnodup' := hqq ▸ hnodup
    have hrestnodup : rest.Nodup := (List.nodup_cons.1 hnodup').2
    have hnotin : nodeId ∉ rest := (List.nodup_cons.1 hnodup').1
    have hqrest : ∀ q ∈ rest, childless st.heap q := fun q hq' =>
      hq q (by rw [hqq]; exact List.mem_cons_of_mem _ hq')
    have h1 := processChildSlot_inv newinput nodeId true { st with queue := rest } nd
      hheap hqrest hrestnodup hnotin hnd (by simp [slotOf, hl])
    obtain ⟨hInv1, hq1, hnodup1, hnot1, nd₂, hnd₂, hslot₂⟩ := h1
    have hslotnd₂ : slotOf nd₂ false = none := by
      have : slotOf nd false = none := by simp [slotOf, hr]
      simpa [this] using hslot₂
    have h2 := processChildSlot_inv newinput nodeId false
      (processChildSlot newinput nodeId true { st with queue := rest }) nd₂
      hInv1 hq1 hnodup1 hnot1 hnd₂ hslotnd₂
    exact ⟨h2.1, h2.2.1, h2.2.2.1⟩

theorem treeBuildLoopAux_inv (newinput : List (Option JSString)) : ∀ (fuel : Nat)
    (st : BuildState), BuildInv st → BuildInv (treeBuildLoopAux newinput fuel st) := by
  intro fuel
  induction fuel with
  | zero => intro st h; exact h
  | succ fuel ih =>
    intro st h
    unfold treeBuildLoopAux
    split
    · exact ih _ (treeBuildStep_inv newinput st h)
    · exact h

/-- The invariant holds for the initial state of `treeConstructor`. -/
theorem buildInv_init (rootVal : Option JSString) :
    BuildInv ({ heap := [({ value := rootVal, leftChild := none, rightChild := none } :
                  BTreeNode)],
                queue := [0], idx := 0 + 1 } : BuildState) := by
  have hnopt : ∀ p s j,
      ¬ pointsTo [({ value := rootVal, leftChild := none, rightChild := none } : BTreeNode)]
        p s j := by
    rintro p s j ⟨nd, hget, hslot⟩
    match p with
    | 0 =>
      simp only [List.get?] at hget
      injection hget with hget
      subst hget
      cases s <;> simp [slotOf] at hslot
    | p + 1 => simp [List.get?] at hget
  refine ⟨⟨?_, ?_, ?_, ?_⟩, ?_, ?_⟩
  · intro p s j hpt
    exact absurd hpt (hnopt p s j)
  · intro p s j hpt
    exact absurd hpt (hnopt p s j)
  · intro j hj1 hj2
    simp at hj2
    omega
  · intro p₁ s₁ p₂ s₂ j h1 h2
    exact absurd h1 (hnopt p₁ s₁ j)
  · intro q hqmem
    have hqe : q = 0 := by simpa using hqmem
    subst hqe
    exact ⟨_, rfl, rfl, rfl⟩
  · simp

/-! ## Node counting along the loop -/

/-- One child-slot block conserves `heap size + non-null tokens still ahead`. -/
theorem processChildSlot_count (newinput : List (Option JSString)) (nodeId : Nat)
    (isLeft : Bool) (st : BuildState) :
    (processChildSlot newinput nodeId isLeft st).heap.length +
      countSome (newinput.drop (processChildSlot newinput nodeId isLeft st).idx) =
    st.heap.length + countSome (newinput.drop st.idx) := by
  unfold processChildSlot
  split
  · rename_i hguard
    split
    · rename_i v heq
      have hidx : newinput[st.idx] = some v := by
        rw [List.get?_eq_getElem?] at heq
        rw [List.getElem?_eq_getElem hguard] at heq
        injection heq
      have hdrop : newinput.drop st.idx = some v :: newinput.drop (st.idx + 1) := by
        rw [List.drop_eq_getElem_cons hguard, hidx]
      simp only
      have hlen2 : (match (st.heap ++
          [({ value := some v, leftChild := none, rightChild := none } : BTreeNode)]).get?
            nodeId with
          | some nd => (st.heap ++
              [({ value := some v, leftChild := none, rightChild := none } : BTreeNode)]).set
              nodeId (if isLeft then nd.setLeftChild (some st.heap.length)
                      else nd.setRightChild (some st.heap.length))
          | none => st.heap ++
              [({ value := some v, leftChild := none, rightChild := none } : BTreeNode)]).length
          = st.heap.length + 1 := by
        split <;> simp
      rw [hlen2, hdrop]
      simp [countSome, List.countP_cons]
      omega
    · rename_i heq
      have hidx : newinput[st.idx] = none := by
        rw [List.get?_eq_getElem?] at heq
        rw [List.getElem?_eq_getElem hguard] at heq
        injection heq
      have hdrop : newinput.drop st.idx = none :: newinput.drop (st.idx + 1) := by
        rw [List.drop_eq_getElem_cons hguard, hidx]
      rw [hdrop]
      simp [countSome, List.countP_cons]
    · rename_i heq
      exact absurd (List.get?_eq_none.1 heq) (by omega)
  · rfl

theorem treeBuildStep_count (newinput : List (Option JSString)) (st : BuildState) :
    (treeBuildStep newinput st).heap.length +
      countSome (newinput.drop (treeBuildStep newinput st).idx) =
    st.heap.length + countSome (newinput.drop st.idx) := by
  unfold treeBuildStep
  match hqq : st.queue with
  | [] => rfl
  | nodeId :: rest =>
    show (processChildSlot newinput nodeId false
        (processChildSlot newinput nodeId true { st with queue := rest })).heap.length +
      countSome (newinput.drop (processChildSlot newinput nodeId false
        (processChildSlot newinput nodeId true { st with queue := rest })).idx) =
      st.heap.length + countSome (newinput.drop st.idx)
    rw [processChildSlot_count newinput nodeId false
      (processChildSlot newinput nodeId true { st with queue := rest })]
    exact processChildSlot_count newinput nodeId true { st with queue := rest }

theorem treeBuildLoopAux_count (newinput : List (Option JSString)) : ∀ (fuel : Nat)
    (st : BuildState),
    (treeBuildLoopAux newinput fuel st).heap.length +
      countSome (newinput.drop (treeBuildLoopAux newinput fuel st).idx) =
    st.heap.length + countSome (newinput.drop st.idx) := by
  intro fuel
  induction fuel with
  | zero => intro st; rfl
  | succ fuel ih =>
    intro st
    unfold treeBuildLoopAux
    split
    · rw [ih (treeBuildStep newinput st)]
      exact treeBuildStep_count newinput st
    · rfl

/-- C3 counterexample: `"1,null,null,2"` has two non-null tokens but the
queue empties after the two null children of the root, so the trailing token
`"2"` is never consumed and the built tree has a single node. -/
theorem claim_C3_counterexample :
    nodeCount (builtTree "1,null,null,2".toList) = 1 ∧
      countSome (parseInput "1,null,null,2".toList) = 2 ∧
      nodeCount (builtTree "1,null,null,2".toList) ≠
        countSome (parseInput "1,null,null,2".toList) := by
  refine ⟨by decide, by decide, by decide⟩

/-- C3 (amended): when the first parsed token is not the null sentinel and
the breadth-first fill consumes the whole token sequence (the final index
equals the token count — exactly the level-order serialisations), the built
tree has exactly as many nodes as there are non-null tokens. -/
theorem claim_C3 (input : JSString)
    (h0 : ∃ v, (parseInput input).head? = some (some v))
    (hAll : (treeConstructor input).idx = (parseInput input).length) :
    nodeCount (builtTree input) = countSome (parseInput input) := by
  have hinv : BuildInv (treeConstructor input) :=
    treeBuildLoopAux_inv (parseInput input) (parseInput input).length _
      (buildInv_init ((input.get? 0).map (fun c => [c])))
  have hcount := treeBuildLoopAux_count (parseInput input) (parseInput input).length
    { heap := [{ value := (input.get? 0).map (fun c => [c]), leftChild := none,
                 rightChild := none }], queue := [0], idx := 0 + 1 }
  have hfin : treeBuildLoopAux (parseInput input) (parseInput input).length
      { heap := [{ value := (input.get? 0).map (fun c => [c]), leftChild := none,
                   rightChild := none }], queue := [0], idx := 0 + 1 } =
      treeConstructor input := rfl
  rw [hfin, hAll, List.drop_length] at hcount
  have hdrop1 : countSome ((parseInput input).drop (0 + 1)) + 1 =
      countSome (parseInput input) := by
    obtain ⟨v, hv⟩ := h0
    cases htok : parseInput input with
    | nil => rw [htok] at hv; cases hv
    | cons t ts =>
      rw [htok] at hv
      simp only [List.head?] at hv
      injection hv with hv
      subst hv
      simp [countSome, List.countP_cons]
  have hlen : (treeConstructor input).heap.length = countSome (parseInput input) := by
    have hnil : countSome ([] : List (Option JSString)) = 0 := rfl
    rw [hnil] at hcount
    simp only [List.length_singleton] at hcount
    omega
  have hpos : 0 < (treeConstructor input).heap.length := by
    rw [hlen]
    omega
  show nodeCount (toTree (treeConstructor input).heap (treeConstructor input).heap.length 0) =
    countSome (parseInput input)
  rw [nodeCount_spanning (treeConstructor input).heap hinv.1 hpos]
  exact hlen

/-- Witness for the amended C3 on the input `"1,null,2"`: first token
non-null, all three tokens consumed, two non-null tokens, two nodes. -/
theorem claim_C3_witness :
    (∃ v, (parseInput "1,null,2".toList).head? = some (some v)) ∧
      (treeConstructor "1,null,2".toList).idx = (parseInput "1,null,2".toList).length ∧
      nodeCount (builtTree "1,null,2".toList) = countSome (parseInput "1,null,2".toList) := by
  refine ⟨⟨['1'], by decide⟩, by decide, ?_⟩
  exact claim_C3 "1,null,2".toList ⟨['1'], by decide⟩ (by decide)
